import Mathlib

/-!
Verification of the PrimeLog postoffice components against their
natural-language specification.

The definitions below are shallow embeddings of the Python sources:
  * `primelog-2.5/primelog-pkg/primelog/postoffice/node.py`
    (`PostmareNode`: pheromone routing table, `update`, `get_next_hop`,
    `get_pheromone_value`, decay loop),
  * `primelog-3.0/primelog-pkg/primelog/postoffice/mailbag.py`
    (`FragmentState`, chunking, resume logic),
  * `primelog-3.0/primelog-pkg/primelog/postoffice/transport.py`
    (inbound control-message pipeline `_handle_conn` / `_verify_signed`),
  * `primelog-2.5/primelog-pkg/primelog/postoffice/bridge.py`
    (`Bridge.deliver`, low-water-mark marker).

Python floats are modelled by `WithTop ℚ` (`⊤` plays the role of
`float('inf')`); byte strings by `List ℕ`; dictionaries by functions into
`Option`; the filesystem and network effects by explicit state and by
function parameters standing for the callbacks the Python code receives.
-/

namespace PrimeLog

/-! ### node.py — PostmareNode -/

/-- Constant `PHEROMONE_MAX_AGE` from node.py: entries older than this are decayed. -/
def PHEROMONE_MAX_AGE : ℚ := 120

/-- One entry of the pheromone table (`PheromoneEntry` in node.py):
`value` is the route cost (a Python float, `inf` possible in principle),
`next_hop` the neighbour fingerprint, `timestamp` the last-update time. -/
structure PheromoneEntry where
  value : WithTop ℚ
  next_hop : Option String
  timestamp : ℚ
  deriving DecidableEq, Repr

/-- The in-memory state of a `PostmareNode`: its own fingerprint, the host
(sink) fingerprint, and the pheromone table (a dict keyed by fingerprint,
modelled as a function into `Option`). -/
structure PostmareNode where
  self_fp : String
  host_fp : String
  table : String → Option PheromoneEntry

/-- Embeds `PostmareNode.__init__`: the table starts empty, except that a node whose
own fingerprint equals the host fingerprint seeds `table[host] = {0, None, now}`. -/
def PostmareNode.init (self_fp host_fp : String) (now : ℚ) : PostmareNode :=
  { self_fp := self_fp
    host_fp := host_fp
    table := fun fp =>
      if self_fp = host_fp ∧ fp = host_fp then
        some ⟨0, none, now⟩
      else none }

/-- Write one table entry (the effect of `self._table[target] = entry`). -/
def PostmareNode.setEntry (n : PostmareNode) (target : String)
    (e : PheromoneEntry) : PostmareNode :=
  { n with table := fun fp => if fp = target then some e else n.table fp }

/-- Embeds `PostmareNode.get_next_hop`: the entry's next hop when an entry exists and
its value is finite, otherwise `None`. -/
def PostmareNode.get_next_hop (n : PostmareNode) (target_fp : String) :
    Option String :=
  match n.table target_fp with
  | some e => if e.value < ⊤ then e.next_hop else none
  | none => none

/-- Embeds `PostmareNode.get_pheromone_value`: the entry's value, or `INF` when the
entry is missing. -/
def PostmareNode.get_pheromone_value (n : PostmareNode) (target_fp : String) :
    WithTop ℚ :=
  match n.table target_fp with
  | some e => e.value
  | none => ⊤

/-- Embeds `PostmareNode.update`: reject `reported_value >= INF`; otherwise compute
`new_cost = reported_value + 1` and overwrite the host entry exactly when no
entry exists or `new_cost` is strictly smaller than the current value.
Returns the updated node and the `bool` the Python method returns. -/
def PostmareNode.update (n : PostmareNode) (neighbor_fp : String)
    (reported_value : WithTop ℚ) (now : ℚ) : PostmareNode × Bool :=
  if (⊤ : WithTop ℚ) ≤ reported_value then (n, false)
  else
    let new_cost := reported_value + 1
    let target := n.host_fp
    match n.table target with
    | none => (n.setEntry target ⟨new_cost, some neighbor_fp, now⟩, true)
    | some current =>
        if new_cost < current.value then
          (n.setEntry target ⟨new_cost, some neighbor_fp, now⟩, true)
        else (n, false)

/-- One pass of `PostmareNode._decay_loop`: delete every entry whose key is
not the node's own fingerprint and whose age exceeds `PHEROMONE_MAX_AGE`. -/
def PostmareNode.decay (n : PostmareNode) (now : ℚ) : PostmareNode :=
  { n with table := fun fp =>
      match n.table fp with
      | some e =>
          if fp ≠ n.self_fp ∧ PHEROMONE_MAX_AGE < now - e.timestamp then
            none
          else some e
      | none => none }

/-- An externally triggered table operation: a routing update (from a
received heartbeat) or one decay pass. -/
inductive NodeOp where
  | upd (neighbor_fp : String) (reported : WithTop ℚ) (now : ℚ)
  | decay (now : ℚ)

/-- Apply one `NodeOp`. -/
def PostmareNode.applyOp (n : PostmareNode) : NodeOp → PostmareNode
  | .upd nb r now => (n.update nb r now).1
  | .decay now => n.decay now

/-- Apply a sequence of operations in order. -/
def PostmareNode.applyOps (n : PostmareNode) : List NodeOp → PostmareNode
  | [] => n
  | op :: ops => (n.applyOp op).applyOps ops

/-- Apply a sequence of `update` calls (no decay in between); each element is
`(neighbor_fp, reported_value, now)`. -/
def PostmareNode.applyUpdates (n : PostmareNode) :
    List (String × WithTop ℚ × ℚ) → PostmareNode
  | [] => n
  | (nb, c, t) :: rest => ((n.update nb c t).1).applyUpdates rest

/-! ### mailbag.py — chunking and FragmentState -/

/-- Constant `CHUNK_SIZE` from mailbag.py: 2 MB per fragment. -/
def CHUNK_SIZE : ℕ := 2 * 1024 * 1024

/-- The chunk sequence produced by `PostmareMailbag._iter_chunks(path, 0)`:
repeatedly read `k` bytes until the read comes back empty.  A file is a byte
list; chunk `i` holds the bytes at offsets `i*k, …, i*k+k-1`.  (For `k = 0`
Python's `f.read(0)` returns `b''` immediately, so nothing is yielded.) -/
def fileChunks : ℕ → List ℕ → List (List ℕ)
  | _, [] => []
  | 0, _ :: _ => []
  | k + 1, a :: l => (a :: l).take (k + 1) :: fileChunks (k + 1) ((a :: l).drop (k + 1))
termination_by _ l => l.length
decreasing_by simp; omega

/-- Embeds `PostmareMailbag._total_chunks`: `max(1, ceil(size / CHUNK_SIZE))`. -/
def totalChunks (size : ℕ) : ℕ :=
  max 1 ((size + CHUNK_SIZE - 1) / CHUNK_SIZE)

/-- Embeds `PostmareMailbag._assemble`: concatenate the fragments of indices
`0, …, total-1` in ascending order. -/
def assemble (frags : List (List ℕ)) : List ℕ :=
  frags.flatten

/-- Embeds `FragmentState`: per-file transfer state, persisted to `.state.json`. -/
structure FragmentState where
  file_id : String
  total : ℕ
  sent : Finset ℕ
  retries : ℕ
  last_try : ℚ

/-- The persisted form of a `FragmentState` (the dict written by `to_dict`
and read by `from_dict`); `sent` is stored as a list of indices. -/
structure StateDict where
  file_id : String
  total : ℕ
  sent : List ℕ
  retries : ℕ
  last_try : ℚ

/-- Embeds `FragmentState.from_dict`: rebuild the state from its persisted dict
(the `sent` list becomes a set again). -/
def FragmentState.from_dict (d : StateDict) : FragmentState :=
  { file_id := d.file_id
    total := d.total
    sent := d.sent.toFinset
    retries := d.retries
    last_try := d.last_try }

/-- Embeds `FragmentState.pending_indices`: `[i for i in range(total) if i not in sent]`. -/
def FragmentState.pending_indices (fs : FragmentState) : List ℕ :=
  (List.range fs.total).filter (fun i => i ∉ fs.sent)

/-- The indices a loop over `pending_indices` actually attempts when the
transfer of index `i` succeeds iff `ok i`: the loop `break`s right after the
first failed attempt (that index was still attempted). -/
def attemptsUpToFailure (ok : ℕ → Bool) : List ℕ → List ℕ
  | [] => []
  | i :: rest => if ok i then i :: attemptsUpToFailure ok rest else [i]

/-- The chunk indices `PostmareMailbag._send_task` attempts for one round:
nothing without a next hop; a single-chunk file with index 0 unsent is sent
whole (index 0); otherwise the pending indices are tried in order, stopping
after the first failure. -/
def sendTaskAttempts (next_hop : Option String) (ok : ℕ → Bool)
    (fs : FragmentState) : List ℕ :=
  match next_hop with
  | none => []
  | some _ =>
      if fs.total = 1 ∧ 0 ∉ fs.sent then [0]
      else attemptsUpToFailure ok fs.pending_indices

/-! ### transport.py — inbound control-message pipeline -/

/-- The body of a control message (`msg['data']` in transport.py): its
`type` selects the handler; the rest of the dict is opaque here. -/
structure MsgData where
  type : String
  body : String
  deriving DecidableEq, Repr

/-- A signed packet as produced by `_wrap_signed`: `{data, signature}`. -/
structure SignedPacket where
  data : MsgData
  signature : String
  deriving DecidableEq, Repr

/-- Embeds `PostmareTransport._verify_signed`: fail when the sender's fingerprint
has no known key; otherwise check the signature over the serialized data
with that key.  `verifySig k d s` abstracts paramiko's
`Ed25519Key.verify_ssh_sig` on the JSON serialization of `d` (it is `false`
when verification raises). -/
def verify_signed (knownKeys : String → Option String)
    (verifySig : String → MsgData → String → Bool)
    (packet : SignedPacket) (sender_fp : String) : Bool :=
  match knownKeys sender_fp with
  | none => false
  | some k => verifySig k packet.data packet.signature

/-- How `_handle_conn` finished; it never raises to its caller. -/
inductive HandleOutcome where
  | droppedAuth
  | droppedEmpty
  | droppedBadJson
  | droppedBadSig
  | handled (msgType : String)
  | noHandler (msgType : String)
  deriving DecidableEq, Repr

/-- Embeds `PostmareTransport._handle_conn` on state type `σ` (each registered
handler mutates the shared state, e.g. the routing table): drop when
public-key auth failed (`peer_fp = none`), when the buffer is empty, when
the JSON does not parse, or when the signature does not verify; only then
dispatch to the handler registered for the message type.  `recvBuf` is
`none` for an empty buffer, `some none` for undecodable bytes and
`some (some p)` for a parsed packet `p`. -/
def handle_conn {σ : Type} (knownKeys : String → Option String)
    (verifySig : String → MsgData → String → Bool)
    (handlers : String → Option (σ → σ))
    (st : σ) (peer_fp : Option String)
    (recvBuf : Option (Option SignedPacket)) : σ × HandleOutcome :=
  match peer_fp with
  | none => (st, .droppedAuth)
  | some fp =>
      match recvBuf with
      | none => (st, .droppedEmpty)
      | some none => (st, .droppedBadJson)
      | some (some packet) =>
          if verify_signed knownKeys verifySig packet fp then
            match handlers packet.data.type with
            | some h => (h st, .handled packet.data.type)
            | none => (st, .noHandler packet.data.type)
          else (st, .droppedBadSig)

/-! ### bridge.py — Bridge.deliver and the low-water-mark marker -/

/-- One directory entry of the export directory as `_collect_new_files`
sees it: name, modification time, filename suffix, regular-file flag. -/
structure BridgeFile where
  name : String
  mtime : ℚ
  suffix : String
  is_file : Bool
  deriving DecidableEq, Repr

/-- The suffixes `_collect_new_files` accepts. -/
def bridgeExts : List String := [".json", ".wl", ".gz", ".csv", ".jsonl"]

/-- Embeds `Bridge._collect_new_files`: regular files with an accepted suffix and
`mtime > since_ts`, sorted by mtime. -/
def collect_new_files (files : List BridgeFile) (since_ts : ℚ) :
    List BridgeFile :=
  (files.filter (fun f =>
    f.is_file ∧ f.suffix ∈ bridgeExts ∧ since_ts < f.mtime)).mergeSort
    (fun a b => a.mtime ≤ b.mtime)

/-- The persistent state `deliver` touches: the per-project marker file's
content (`none` when the marker does not exist) and the packages already
written to the mailbag directory. -/
structure BridgeState where
  marker : Option ℚ
  outbox : List String
  deriving DecidableEq, Repr

/-- Embeds `Bridge._read_marker`: the stored timestamp, or `0.0` when the marker
file is missing or unreadable. -/
def read_marker (marker : Option ℚ) : ℚ :=
  marker.getD 0

/-- The `.tar.gz` name `_pack` chooses (`f"{project}_{ts}.tar.gz"`). -/
def packName (project : String) (now : ℚ) : String :=
  project ++ "_" ++ toString now.num ++ ".tar.gz"

/-- Embeds `Bridge.deliver`: `scan_dir` is the resolved export directory's listing
(`none` when the directory does not exist).  Return `none` and leave the
state alone when the directory is missing or no new files exist; otherwise
pack the new files into the mailbag and advance the marker to `now`. -/
def deliver (b : BridgeState) (project : String)
    (scan_dir : Option (List BridgeFile)) (now : ℚ) :
    BridgeState × Option String :=
  match scan_dir with
  | none => (b, none)
  | some files =>
      let last_ts := read_marker b.marker
      let new_files := collect_new_files files last_ts
      if new_files.isEmpty then (b, none)
      else
        let tar_name := packName project now
        ({ marker := some now, outbox := b.outbox ++ [tar_name] }, some tar_name)

/-! ### Step lemmas for PostmareNode.update -/

theorem PostmareNode.table_setEntry (n : PostmareNode) (t : String)
    (e : PheromoneEntry) (fp : String) :
    (n.setEntry t e).table fp = if fp = t then some e else n.table fp := rfl

theorem PostmareNode.update_of_inf (n : PostmareNode) (nb : String)
    (c : WithTop ℚ) (now : ℚ) (h : (⊤ : WithTop ℚ) ≤ c) :
    n.update nb c now = (n, false) := by
  simp [PostmareNode.update, h]

theorem PostmareNode.update_of_none (n : PostmareNode) (nb : String)
    (c : WithTop ℚ) (now : ℚ) (h : ¬ (⊤ : WithTop ℚ) ≤ c)
    (ht : n.table n.host_fp = none) :
    n.update nb c now = (n.setEntry n.host_fp ⟨c + 1, some nb, now⟩, true) := by
  simp [PostmareNode.update, h, ht]

theorem PostmareNode.update_of_lt (n : PostmareNode) (nb : String)
    (c : WithTop ℚ) (now : ℚ) (e : PheromoneEntry)
    (h : ¬ (⊤ : WithTop ℚ) ≤ c) (ht : n.table n.host_fp = some e)
    (hlt : c + 1 < e.value) :
    n.update nb c now = (n.setEntry n.host_fp ⟨c + 1, some nb, now⟩, true) := by
  simp [PostmareNode.update, h, ht, hlt]

theorem PostmareNode.update_of_ge (n : PostmareNode) (nb : String)
    (c : WithTop ℚ) (now : ℚ) (e : PheromoneEntry)
    (h : ¬ (⊤ : WithTop ℚ) ≤ c) (ht : n.table n.host_fp = some e)
    (hge : ¬ c + 1 < e.value) :
    n.update nb c now = (n, false) := by
  simp [PostmareNode.update, h, ht, hge]

theorem PostmareNode.update_host_fp (n : PostmareNode) (nb : String)
    (c : WithTop ℚ) (now : ℚ) :
    ((n.update nb c now).1).host_fp = n.host_fp := by
  by_cases h : (⊤ : WithTop ℚ) ≤ c
  · rw [n.update_of_inf nb c now h]
  · cases ht : n.table n.host_fp with
    | none => rw [n.update_of_none nb c now h ht]; rfl
    | some e =>
        by_cases hlt : c + 1 < e.value
        · rw [n.update_of_lt nb c now e h ht hlt]; rfl
        · rw [n.update_of_ge nb c now e h ht hlt]

theorem PostmareNode.update_self_fp (n : PostmareNode) (nb : String)
    (c : WithTop ℚ) (now : ℚ) :
    ((n.update nb c now).1).self_fp = n.self_fp := by
  by_cases h : (⊤ : WithTop ℚ) ≤ c
  · rw [n.update_of_inf nb c now h]
  · cases ht : n.table n.host_fp with
    | none => rw [n.update_of_none nb c now h ht]; rfl
    | some e =>
        by_cases hlt : c + 1 < e.value
        · rw [n.update_of_lt nb c now e h ht hlt]; rfl
        · rw [n.update_of_ge nb c now e h ht hlt]

theorem PostmareNode.get_pheromone_value_setEntry_self (n : PostmareNode)
    (t : String) (e : PheromoneEntry) :
    (n.setEntry t e).get_pheromone_value t = e.value := by
  simp [PostmareNode.get_pheromone_value, PostmareNode.setEntry]

/-- The stored cost to the sink after one `update` with a finite report `c`
is exactly `min` of the old stored cost and the candidate `c + 1` (a missing
entry counting as `⊤`). -/
theorem PostmareNode.update_value_eq_min (n : PostmareNode) (nb : String)
    (c : WithTop ℚ) (now : ℚ) (h : ¬ (⊤ : WithTop ℚ) ≤ c) :
    ((n.update nb c now).1).get_pheromone_value n.host_fp
      = min (n.get_pheromone_value n.host_fp) (c + 1) := by
  cases ht : n.table n.host_fp with
  | none =>
      rw [n.update_of_none nb c now h ht]
      rw [PostmareNode.get_pheromone_value_setEntry_self]
      have hold : n.get_pheromone_value n.host_fp = ⊤ := by
        simp [PostmareNode.get_pheromone_value, ht]
      rw [hold, min_eq_right le_top]
  | some e =>
      have hold : n.get_pheromone_value n.host_fp = e.value := by
        simp [PostmareNode.get_pheromone_value, ht]
      by_cases hlt : c + 1 < e.value
      · rw [n.update_of_lt nb c now e h ht hlt]
        rw [PostmareNode.get_pheromone_value_setEntry_self, hold,
          min_eq_right hlt.le]
      · rw [n.update_of_ge nb c now e h ht hlt, hold,
          min_eq_left (not_lt.1 hlt)]

/-- One `update` never raises the stored cost to the sink, whatever the
reported value (including `⊤`, which is rejected). -/
theorem PostmareNode.update_value_le (n : PostmareNode) (nb : String)
    (c : WithTop ℚ) (now : ℚ) :
    ((n.update nb c now).1).get_pheromone_value n.host_fp
      ≤ n.get_pheromone_value n.host_fp := by
  by_cases h : (⊤ : WithTop ℚ) ≤ c
  · rw [n.update_of_inf nb c now h]
  · rw [n.update_value_eq_min nb c now h]
    exact min_le_left _ _

/-- Over any sequence of `update` calls, the stored cost to the sink is
monotonically non-increasing. -/
theorem PostmareNode.applyUpdates_value_le (n : PostmareNode)
    (calls : List (String × WithTop ℚ × ℚ)) :
    (n.applyUpdates calls).get_pheromone_value n.host_fp
      ≤ n.get_pheromone_value n.host_fp := by
  induction calls generalizing n with
  | nil => exact le_refl _
  | cons call rest ih =>
      obtain ⟨nb, c, t⟩ := call
      have h2 := ih ((n.update nb c t).1)
      rw [PostmareNode.update_host_fp] at h2
      exact le_trans h2 (n.update_value_le nb c t)

theorem PostmareNode.get_next_hop_setEntry_self (n : PostmareNode)
    (t : String) (e : PheromoneEntry) :
    (n.setEntry t e).get_next_hop t
      = if e.value < ⊤ then e.next_hop else none := by
  simp [PostmareNode.get_next_hop, PostmareNode.setEntry]

/-- C1: `update(neighbor, c)` rejects `c = +∞` (false, unchanged table);
otherwise it replaces the sink entry with `{c+1, neighbor, now}` exactly
when no entry exists or `c+1` beats the current cost, returning true exactly
then; the stored sink cost after the call is `min(old, c+1)` (so a report of
`c` never stores a cost below `c+1`), and over any sequence of updates the
stored sink cost is monotonically non-increasing. -/
theorem routing_update_spec (n : PostmareNode) (nb : String) (c : WithTop ℚ)
    (now : ℚ) (hc : c < ⊤) :
    n.update nb ⊤ now = (n, false) ∧
    ((n.update nb c now).2 = true ↔
      n.table n.host_fp = none ∨
        ∃ e, n.table n.host_fp = some e ∧ c + 1 < e.value) ∧
    ((n.update nb c now).2 = true →
      ((n.update nb c now).1).table n.host_fp = some ⟨c + 1, some nb, now⟩) ∧
    ((n.update nb c now).2 = false → (n.update nb c now).1 = n) ∧
    ((n.update nb c now).1).get_pheromone_value n.host_fp
      = min (n.get_pheromone_value n.host_fp) (c + 1) ∧
    ∀ calls : List (String × WithTop ℚ × ℚ),
      (n.applyUpdates calls).get_pheromone_value n.host_fp
        ≤ n.get_pheromone_value n.host_fp := by
  have h : ¬ (⊤ : WithTop ℚ) ≤ c := not_le.mpr hc
  refine ⟨n.update_of_inf nb ⊤ now (le_refl _), ?_, ?_, ?_,
    n.update_value_eq_min nb c now h, n.applyUpdates_value_le⟩
  · cases ht : n.table n.host_fp with
    | none =>
        rw [n.update_of_none nb c now h ht]
        simp [ht]
    | some e =>
        by_cases hlt : c + 1 < e.value
        · rw [n.update_of_lt nb c now e h ht hlt]
          simp only [ht]
          exact iff_of_true trivial (Or.inr ⟨e, rfl, hlt⟩)
        · rw [n.update_of_ge nb c now e h ht hlt]
          simp only [ht]
          constructor
          · intro hfalse; exact absurd hfalse (by simp)
          · rintro (hnone | ⟨e', he', hlt'⟩)
            · exact absurd hnone (by simp)
            · obtain rfl : e = e' := by injection he'
              exact absurd hlt' hlt
  · intro htrue
    cases ht : n.table n.host_fp with
    | none =>
        rw [n.update_of_none nb c now h ht,
          PostmareNode.table_setEntry, if_pos rfl]
    | some e =>
        by_cases hlt : c + 1 < e.value
        · rw [n.update_of_lt nb c now e h ht hlt,
            PostmareNode.table_setEntry, if_pos rfl]
        · rw [n.update_of_ge nb c now e h ht hlt] at htrue
          exact absurd htrue (by simp)
  · intro hfalse
    cases ht : n.table n.host_fp with
    | none =>
        rw [n.update_of_none nb c now h ht] at hfalse
        exact absurd hfalse (by simp)
    | some e =>
        by_cases hlt : c + 1 < e.value
        · rw [n.update_of_lt nb c now e h ht hlt] at hfalse
          exact absurd hfalse (by simp)
        · rw [n.update_of_ge nb c now e h ht hlt]

/-- Witness for C1 at a concrete input: on a fresh non-sink node, a report
of cost 0 from `"B"` changes the route (the theorem's replacement condition
holds because no entry exists yet). -/
theorem routing_update_spec_witness :
    ((PostmareNode.init "A" "H" 0).update "B" ((0 : ℚ) : WithTop ℚ) 1).2
      = true := by
  have h := routing_update_spec (PostmareNode.init "A" "H" 0) "B"
    ((0 : ℚ) : WithTop ℚ) 1 (WithTop.coe_lt_top 0)
  refine h.2.1.mpr (Or.inl ?_)
  simp [PostmareNode.init]

/-- The routing scenario of the spec, step 1: `update("B", 0.0)`. -/
def c6_step1 : PostmareNode × Bool :=
  (PostmareNode.init "A" "H" 0).update "B" ((0 : ℚ) : WithTop ℚ) 1

/-- Step 2: `update("C", 5.0)` (candidate 6.0). -/
def c6_step2 : PostmareNode × Bool :=
  c6_step1.1.update "C" ((5 : ℚ) : WithTop ℚ) 2

/-- Step 3: `update("D", -0.5)` (candidate 0.5). -/
def c6_step3 : PostmareNode × Bool :=
  c6_step2.1.update "D" ((-1/2 : ℚ) : WithTop ℚ) 3

/-- C6: on a non-sink node with an empty table, `update("B", 0.0)` stores
cost 1 with next hop `"B"`; `update("C", 5.0)` (candidate 6.0) changes
nothing and returns false; `update("D", -0.5)` (candidate 0.5) replaces the
route, giving next hop `"D"` and cost 0.5. -/
theorem routing_scenario :
    c6_step1.1.get_pheromone_value "H" = ((1 : ℚ) : WithTop ℚ) ∧
    c6_step1.1.get_next_hop "H" = some "B" ∧
    c6_step2 = (c6_step1.1, false) ∧
    c6_step3.1.get_next_hop "H" = some "D" ∧
    c6_step3.1.get_pheromone_value "H" = ((1/2 : ℚ) : WithTop ℚ) := by
  have hval1 : ((0 : ℚ) : WithTop ℚ) + 1 = ((1 : ℚ) : WithTop ℚ) := by norm_num
  have hval6 : ((5 : ℚ) : WithTop ℚ) + 1 = ((6 : ℚ) : WithTop ℚ) := by norm_num
  have hvalh : ((-1/2 : ℚ) : WithTop ℚ) + 1 = ((1/2 : ℚ) : WithTop ℚ) := by
    rw [← WithTop.coe_one, ← WithTop.coe_add, WithTop.coe_eq_coe]
    norm_num
  have h1 : c6_step1 = ((PostmareNode.init "A" "H" 0).setEntry "H"
      ⟨((0 : ℚ) : WithTop ℚ) + 1, some "B", 1⟩, true) := by
    rw [c6_step1]
    exact PostmareNode.update_of_none _ _ _ _ (by simp)
      (by simp [PostmareNode.init])
  have ht1 : c6_step1.1.table "H"
      = some ⟨((0 : ℚ) : WithTop ℚ) + 1, some "B", 1⟩ := by
    rw [h1, PostmareNode.table_setEntry, if_pos rfl]
  have h2 : c6_step2 = (c6_step1.1, false) := by
    rw [c6_step2]
    refine PostmareNode.update_of_ge _ _ _ _
      ⟨((0 : ℚ) : WithTop ℚ) + 1, some "B", 1⟩ (by simp) ht1 ?_
    rw [hval6, hval1, WithTop.coe_lt_coe]
    norm_num
  have h3 : c6_step3 = (c6_step1.1.setEntry "H"
      ⟨((-1/2 : ℚ) : WithTop ℚ) + 1, some "D", 3⟩, true) := by
    rw [c6_step3, h2]
    refine PostmareNode.update_of_lt _ _ _ _
      ⟨((0 : ℚ) : WithTop ℚ) + 1, some "B", 1⟩ (by simp) ht1 ?_
    rw [hvalh, hval1, WithTop.coe_lt_coe]
    norm_num
  refine ⟨?_, ?_, h2, ?_, ?_⟩
  · rw [h1, PostmareNode.get_pheromone_value_setEntry_self, hval1]
  · rw [h1, PostmareNode.get_next_hop_setEntry_self]
    rw [if_pos (by rw [hval1]; exact WithTop.coe_lt_top 1)]
  · rw [h3, PostmareNode.get_next_hop_setEntry_self]
    rw [if_pos (by rw [hvalh]; exact WithTop.coe_lt_top (1/2))]
  · rw [h3, PostmareNode.get_pheromone_value_setEntry_self, hvalh]

/-! ### Sink-node invariants (C4, C8) -/

/-- A report value at least `-1` (candidate cost at least `0`); every value
the system itself broadcasts satisfies this, since broadcast values are `0`
at the sink and `cost + 1` elsewhere. -/
def NodeOp.reportSane : NodeOp → Prop
  | .upd _ c _ => ((-1 : ℚ) : WithTop ℚ) ≤ c
  | .decay _ => True

theorem PostmareNode.decay_self_fp (n : PostmareNode) (now : ℚ) :
    (n.decay now).self_fp = n.self_fp := rfl

theorem PostmareNode.decay_host_fp (n : PostmareNode) (now : ℚ) :
    (n.decay now).host_fp = n.host_fp := rfl

theorem PostmareNode.decay_table_self (n : PostmareNode) (now : ℚ) :
    (n.decay now).table n.self_fp = n.table n.self_fp := by
  cases h : n.table n.self_fp with
  | none => simp [PostmareNode.decay, h]
  | some e => simp [PostmareNode.decay, h]

theorem add_one_lt_top {c : WithTop ℚ} (h : ¬ (⊤ : WithTop ℚ) ≤ c) :
    c + 1 < ⊤ := by
  rw [lt_top_iff_ne_top, Ne, WithTop.add_eq_top]
  push_neg
  exact ⟨fun hc => h (le_of_eq hc.symm), WithTop.one_ne_top⟩

theorem candidate_nonneg {c : WithTop ℚ} (h : ((-1 : ℚ) : WithTop ℚ) ≤ c) :
    ¬ c + 1 < (0 : WithTop ℚ) := by
  have h1 : ((-1 : ℚ) : WithTop ℚ) + 1 ≤ c + 1 := add_le_add_right h 1
  have h0 : ((-1 : ℚ) : WithTop ℚ) + 1 = (0 : WithTop ℚ) := by
    rw [← WithTop.coe_one, ← WithTop.coe_add, ← WithTop.coe_zero,
      WithTop.coe_eq_coe]
    norm_num
  rw [h0] at h1
  exact not_lt.mpr h1

/-- Auxiliary invariant for C4: the sink's self entry `{0, none, t0}`
survives every sane update and every decay pass. -/
theorem sink_invariant_aux (n : PostmareNode) (s : String) (t0 : ℚ)
    (ops : List NodeOp) (hself : n.self_fp = s) (hhost : n.host_fp = s)
    (htab : n.table s = some ⟨0, none, t0⟩)
    (hops : ∀ op ∈ ops, op.reportSane) :
    (n.applyOps ops).self_fp = s ∧ (n.applyOps ops).host_fp = s ∧
      (n.applyOps ops).table s = some ⟨0, none, t0⟩ := by
  induction ops generalizing n with
  | nil => exact ⟨hself, hhost, htab⟩
  | cons op rest ih =>
      have hop := hops op (List.mem_cons_self op rest)
      have hrest : ∀ o ∈ rest, o.reportSane :=
        fun o ho => hops o (List.mem_cons_of_mem op ho)
      cases op with
      | upd nb c t =>
          by_cases hinf : (⊤ : WithTop ℚ) ≤ c
          · have hstep : (n.update nb c t).1 = n := by
              rw [n.update_of_inf nb c t hinf]
            simp only [PostmareNode.applyOps, PostmareNode.applyOp, hstep]
            exact ih n hself hhost htab hrest
          · have ht' : n.table n.host_fp = some ⟨0, none, t0⟩ := by
              rw [hhost]; exact htab
            have hge : ¬ c + 1 < (PheromoneEntry.mk 0 none t0).value :=
              candidate_nonneg hop
            have hstep : (n.update nb c t).1 = n := by
              rw [n.update_of_ge nb c t ⟨0, none, t0⟩ hinf ht' hge]
            simp only [PostmareNode.applyOps, PostmareNode.applyOp, hstep]
            exact ih n hself hhost htab hrest
      | decay t =>
          have hself' : (n.decay t).self_fp = s := hself
          have hhost' : (n.decay t).host_fp = s := hhost
          have htab' : (n.decay t).table s = some ⟨0, none, t0⟩ := by
            have := n.decay_table_self t
            rw [hself] at this
            rw [this, htab]
          simp only [PostmareNode.applyOps, PostmareNode.applyOp]
          exact ih (n.decay t) hself' hhost' htab' hrest

/-- C4 counterexample: the claim fails as stated.  On a node that is the
sink, a single `update("X", -2.0)` (candidate `-1 < 0`) overwrites the
permanent entry: the reported cost becomes `-1` and the next hop `"X"`. -/
theorem sink_overwrite_cex :
    ((PostmareNode.init "S" "S" 0).update "X" ((-2 : ℚ) : WithTop ℚ) 1).1.get_pheromone_value "S"
        ≠ ((0 : ℚ) : WithTop ℚ) ∧
    ((PostmareNode.init "S" "S" 0).update "X" ((-2 : ℚ) : WithTop ℚ) 1).1.get_next_hop "S"
        = some "X" := by
  have htab : (PostmareNode.init "S" "S" 0).table "S"
      = some ⟨0, none, 0⟩ := by
    simp [PostmareNode.init]
  have hlt : ((-2 : ℚ) : WithTop ℚ) + 1 < (PheromoneEntry.mk 0 none 0).value := by
    show ((-2 : ℚ) : WithTop ℚ) + 1 < (0 : WithTop ℚ)
    rw [← WithTop.coe_one, ← WithTop.coe_add, ← WithTop.coe_zero,
      WithTop.coe_lt_coe]
    norm_num
  have hstep : (PostmareNode.init "S" "S" 0).update "X" ((-2 : ℚ) : WithTop ℚ) 1
      = ((PostmareNode.init "S" "S" 0).setEntry "S"
          ⟨((-2 : ℚ) : WithTop ℚ) + 1, some "X", 1⟩, true) :=
    PostmareNode.update_of_lt _ _ _ _ ⟨0, none, 0⟩ (by simp) htab hlt
  constructor
  · rw [hstep, PostmareNode.get_pheromone_value_setEntry_self]
    rw [← WithTop.coe_one, ← WithTop.coe_add, Ne, WithTop.coe_eq_coe]
    norm_num
  · rw [hstep, PostmareNode.get_next_hop_setEntry_self]
    rw [if_pos (add_one_lt_top (by simp))]

/-- C4 (amended): a node that is the sink keeps its permanent entry
`{cost 0, nextHop none}` under every sequence of updates whose reported
costs are at least `-1` (in particular all non-negative reports, the only
values the protocol produces) and under every decay pass; `getCost` stays
`0` and `getNextHop` stays `none`. -/
theorem sink_invariant (s : String) (t0 : ℚ) (ops : List NodeOp)
    (hops : ∀ op ∈ ops, op.reportSane) :
    ((PostmareNode.init s s t0).applyOps ops).table s = some ⟨0, none, t0⟩ ∧
    ((PostmareNode.init s s t0).applyOps ops).get_pheromone_value s
      = (0 : WithTop ℚ) ∧
    ((PostmareNode.init s s t0).applyOps ops).get_next_hop s = none := by
  have htab : (PostmareNode.init s s t0).table s = some ⟨0, none, t0⟩ := by
    simp [PostmareNode.init]
  obtain ⟨-, -, h⟩ := sink_invariant_aux (PostmareNode.init s s t0) s t0 ops
    rfl rfl htab hops
  refine ⟨h, ?_, ?_⟩
  · simp [PostmareNode.get_pheromone_value, h]
  · simp [PostmareNode.get_next_hop, h]

/-- Witness for C4 (amended) at a concrete input: after a sane update and a
decay pass, the sink still reports cost `0`. -/
theorem sink_invariant_witness :
    ((PostmareNode.init "S" "S" 0).applyOps
        [.upd "X" ((0 : ℚ) : WithTop ℚ) 1, .decay 500]).get_pheromone_value "S"
      = (0 : WithTop ℚ) := by
  refine (sink_invariant "S" 0 _ ?_).2.1
  intro op hop
  rcases List.mem_cons.mp hop with rfl | hop'
  · show ((-1 : ℚ) : WithTop ℚ) ≤ ((0 : ℚ) : WithTop ℚ)
    rw [WithTop.coe_le_coe]
    norm_num
  · rcases List.mem_cons.mp hop' with rfl | hnil
    · trivial
    · exact absurd hnil (List.not_mem_nil _)

/-- Entries written by `update` carry a finite value and a real next hop;
decay only deletes entries.  So on any node whose initial table satisfies
this, every reachable table entry has `value < ⊤` and `next_hop ≠ none`. -/
theorem table_entries_wf_aux (n : PostmareNode) (ops : List NodeOp)
    (hn : ∀ fp e, n.table fp = some e → e.value < ⊤ ∧ e.next_hop ≠ none) :
    ∀ fp e, (n.applyOps ops).table fp = some e →
      e.value < ⊤ ∧ e.next_hop ≠ none := by
  induction ops generalizing n with
  | nil => exact hn
  | cons op rest ih =>
      simp only [PostmareNode.applyOps]
      refine ih (n.applyOp op) ?_
      cases op with
      | upd nb c t =>
          intro fp e he
          by_cases hinf : (⊤ : WithTop ℚ) ≤ c
          · rw [show n.applyOp (.upd nb c t) = n from
              congrArg Prod.fst (n.update_of_inf nb c t hinf)] at he
            exact hn fp e he
          · cases ht : n.table n.host_fp with
            | none =>
                rw [show n.applyOp (.upd nb c t)
                    = n.setEntry n.host_fp ⟨c + 1, some nb, t⟩ from
                  congrArg Prod.fst (n.update_of_none nb c t hinf ht)] at he
                rw [PostmareNode.table_setEntry] at he
                by_cases hfp : fp = n.host_fp
                · rw [if_pos hfp] at he
                  obtain rfl : e = ⟨c + 1, some nb, t⟩ := by
                    injection he.symm
                  exact ⟨add_one_lt_top hinf, by simp⟩
                · rw [if_neg hfp] at he
                  exact hn fp e he
            | some cur =>
                by_cases hlt : c + 1 < cur.value
                · rw [show n.applyOp (.upd nb c t)
                      = n.setEntry n.host_fp ⟨c + 1, some nb, t⟩ from
                    congrArg Prod.fst (n.update_of_lt nb c t cur hinf ht hlt)] at he
                  rw [PostmareNode.table_setEntry] at he
                  by_cases hfp : fp = n.host_fp
                  · rw [if_pos hfp] at he
                    obtain rfl : e = ⟨c + 1, some nb, t⟩ := by
                      injection he.symm
                    exact ⟨add_one_lt_top hinf, by simp⟩
                  · rw [if_neg hfp] at he
                    exact hn fp e he
                · rw [show n.applyOp (.upd nb c t) = n from
                    congrArg Prod.fst (n.update_of_ge nb c t cur hinf ht hlt)] at he
                  exact hn fp e he
      | decay t =>
          intro fp e he
          simp only [PostmareNode.applyOp, PostmareNode.decay] at he
          cases ht : n.table fp with
          | none => simp [ht] at he
          | some cur =>
              simp only [ht] at he
              by_cases hc : fp ≠ n.self_fp ∧ PHEROMONE_MAX_AGE < t - cur.timestamp
              · rw [if_pos hc] at he
                exact absurd he (by simp)
              · rw [if_neg hc] at he
                obtain rfl : e = cur := by injection he.symm
                exact hn fp e ht

/-- C8 counterexample: the claim fails as stated.  A node that is its own
sink starts (reachably, with no operations at all) with the permanent entry
`{cost 0, nextHop none}`: its next hop is `none` while its cost is `0`,
not `+∞`, so `nextHop = none ⟺ cost = +∞` is violated. -/
theorem route_iff_cex :
    (PostmareNode.init "S" "S" 0).get_next_hop "S" = none ∧
    (PostmareNode.init "S" "S" 0).get_pheromone_value "S" ≠ ⊤ ∧
    ¬ ((PostmareNode.init "S" "S" 0).get_next_hop "S" = none ↔
        (PostmareNode.init "S" "S" 0).get_pheromone_value "S" = ⊤) := by
  have htab : (PostmareNode.init "S" "S" 0).table "S"
      = some ⟨0, none, 0⟩ := by
    simp [PostmareNode.init]
  have h1 : (PostmareNode.init "S" "S" 0).get_next_hop "S" = none := by
    simp [PostmareNode.get_next_hop, htab]
  have h2 : (PostmareNode.init "S" "S" 0).get_pheromone_value "S" ≠ ⊤ := by
    simp only [PostmareNode.get_pheromone_value, htab]
    exact WithTop.zero_ne_top
  exact ⟨h1, h2, fun hiff => h2 (hiff.mp h1)⟩

/-- C8 (amended): on a node that is not itself the sink, every reachable
state satisfies the invariant: the next hop for a target is `none` iff the
stored cost for it is `+∞` (a missing entry counting as `+∞`).  The single
exception is the sink node's own permanent `{0, none}` entry. -/
theorem route_none_iff_inf (s h : String) (t0 : ℚ) (ops : List NodeOp)
    (t : String) (hsh : s ≠ h) :
    ((PostmareNode.init s h t0).applyOps ops).get_next_hop t = none ↔
    ((PostmareNode.init s h t0).applyOps ops).get_pheromone_value t = ⊤ := by
  have hinit : ∀ fp e, (PostmareNode.init s h t0).table fp = some e →
      e.value < ⊤ ∧ e.next_hop ≠ none := by
    intro fp e he
    simp only [PostmareNode.init] at he
    rw [if_neg (fun hand => hsh hand.1)] at he
    exact absurd he (by simp)
  have hwf := table_entries_wf_aux (PostmareNode.init s h t0) ops hinit
  cases ht : ((PostmareNode.init s h t0).applyOps ops).table t with
  | none =>
      simp [PostmareNode.get_next_hop, PostmareNode.get_pheromone_value, ht]
  | some e =>
      obtain ⟨hv, hh⟩ := hwf t e ht
      simp only [PostmareNode.get_next_hop, PostmareNode.get_pheromone_value,
        ht]
      rw [if_pos hv]
      constructor
      · intro hnone; exact absurd hnone hh
      · intro htop; exact absurd htop (ne_of_lt hv)

/-- Witness for C8 (amended) at a concrete input: on a fresh non-sink node
with no route, both sides of the invariant hold. -/
theorem route_none_iff_inf_witness :
    ((PostmareNode.init "A" "H" 0).applyOps []).get_next_hop "H" = none ↔
    ((PostmareNode.init "A" "H" 0).applyOps []).get_pheromone_value "H" = ⊤ :=
  route_none_iff_inf "A" "H" 0 [] "H" (by decide)

/-! ### Chunk round-trip (C2) and chunk counting (C9) -/

theorem fileChunks_flatten (k : ℕ) :
    ∀ l : List ℕ, (fileChunks (k + 1) l).flatten = l
  | [] => by simp [fileChunks]
  | a :: l => by
      rw [fileChunks, List.flatten_cons,
        fileChunks_flatten k ((a :: l).drop (k + 1))]
      exact List.take_append_drop (k + 1) (a :: l)
termination_by l => l.length
decreasing_by simp; omega

theorem fileChunks_getD (k : ℕ) :
    ∀ (l : List ℕ) (i : ℕ),
      (fileChunks (k + 1) l).getD i [] = (l.drop (i * (k + 1))).take (k + 1)
  | [], i => by simp [fileChunks]
  | a :: l, i => by
      rw [fileChunks]
      cases i with
      | zero => simp
      | succ j =>
          rw [List.getD_cons_succ,
            fileChunks_getD k ((a :: l).drop (k + 1)) j, List.drop_drop]
          congr 2
          rw [Nat.succ_mul]
          omega
termination_by l => l.length
decreasing_by simp; omega

theorem fileChunks_length (k : ℕ) :
    ∀ l : List ℕ, (fileChunks (k + 1) l).length = (l.length + k) / (k + 1)
  | [] => by
      simp [fileChunks]
      rw [Nat.div_eq_of_lt (by omega)]
  | a :: l => by
      rw [fileChunks]
      simp only [List.length_cons]
      rw [fileChunks_length k ((a :: l).drop (k + 1))]
      simp only [List.length_drop, List.length_cons]
      have key : l.length + 1 + k = (l.length + 1 - 1) + (k + 1) := by omega
      rw [key, Nat.add_div_right _ (Nat.succ_pos k)]
      by_cases h : k + 1 < l.length + 1
      · have h2 : l.length + 1 - (k + 1) + k = l.length + 1 - 1 := by omega
        rw [h2]
      · have h1 : l.length + 1 - (k + 1) = 0 := by omega
        rw [h1, Nat.div_eq_of_lt (by omega), Nat.div_eq_of_lt (by omega)]
termination_by l => l.length
decreasing_by simp; omega

/-- C2: for every file (byte list) and chunk size `k > 0`, the chunks of
`k` bytes taken at offsets `i*k` reassemble, concatenated in ascending
index order, to exactly the original bytes; moreover chunk `i` is exactly
the bytes at offsets `i*k, …, i*k+k-1`, and there are `ceil(s/k)` chunks. -/
theorem chunk_roundtrip (k : ℕ) (l : List ℕ) (hk : 0 < k) :
    assemble (fileChunks k l) = l ∧
    (∀ i : ℕ, (fileChunks k l).getD i [] = (l.drop (i * k)).take k) ∧
    (fileChunks k l).length = (l.length + k - 1) / k := by
  obtain ⟨m, rfl⟩ : ∃ m, k = m + 1 := ⟨k - 1, by omega⟩
  refine ⟨fileChunks_flatten m l, fun i => fileChunks_getD m l i, ?_⟩
  rw [fileChunks_length m l]
  have harg : l.length + (m + 1) - 1 = l.length + m := by omega
  rw [harg]

/-- Witness for C2 at a concrete input: a 4-byte file with chunk size 3
splits into 2 chunks and reassembles exactly. -/
theorem chunk_roundtrip_witness :
    assemble (fileChunks 3 [10, 11, 12, 13]) = [10, 11, 12, 13] :=
  (chunk_roundtrip 3 [10, 11, 12, 13] (by norm_num)).1

/-- C9 counterexample: the claim fails at a file of size 0.  The code's
`_total_chunks` returns `max(1, ceil(size/CHUNK_SIZE))`, which is `1` for
an empty file, while `ceil(0/CHUNK_SIZE) = 0`. -/
theorem total_chunks_zero_cex :
    totalChunks 0 = 1 ∧ (0 + CHUNK_SIZE - 1) / CHUNK_SIZE = 0 := by
  constructor
  · norm_num [totalChunks, CHUNK_SIZE]
  · norm_num [CHUNK_SIZE]

/-- C9 (amended): the transfer job for a file of byte size `s > 0` has
total chunk count `ceil(s / CHUNK_SIZE)`; a file of size 0 yields 1 chunk
(the code takes `max(1, ceil(s / CHUNK_SIZE))`). -/
theorem total_chunks_spec (s : ℕ) (hs : 0 < s) :
    totalChunks s = (s + CHUNK_SIZE - 1) / CHUNK_SIZE ∧ totalChunks 0 = 1 := by
  have hC : 0 < CHUNK_SIZE := by norm_num [CHUNK_SIZE]
  have h1 : 1 ≤ (s + CHUNK_SIZE - 1) / CHUNK_SIZE :=
    (Nat.one_le_div_iff hC).mpr (by omega)
  exact ⟨max_eq_right h1, by norm_num [totalChunks, CHUNK_SIZE]⟩

/-- Witness for C9 (amended) at a concrete input: a 5-byte file needs
`ceil(5 / 2MB) = 1` chunk. -/
theorem total_chunks_spec_witness :
    totalChunks 5 = (5 + CHUNK_SIZE - 1) / CHUNK_SIZE :=
  (total_chunks_spec 5 (by norm_num)).1

/-! ### Resume after crash (C3) -/

theorem attemptsUpToFailure_subset (ok : ℕ → Bool) :
    ∀ (l : List ℕ) (i : ℕ), i ∈ attemptsUpToFailure ok l → i ∈ l
  | [], i => by simp [attemptsUpToFailure]
  | j :: rest, i => by
      rw [attemptsUpToFailure]
      by_cases hj : ok j
      · rw [if_pos hj]
        intro hi
        rcases List.mem_cons.mp hi with rfl | hi'
        · exact List.mem_cons_self _ _
        · exact List.mem_cons_of_mem _ (attemptsUpToFailure_subset ok rest i hi')
      · rw [if_neg hj]
        intro hi
        rcases List.mem_cons.mp hi with rfl | hi'
        · exact List.mem_cons_self _ _
        · exact absurd hi' (List.not_mem_nil _)

/-- C3: the job reloaded from its persisted record has `pending_indices`
exactly `{0..total-1} \ sent`, and one send round for that job attempts
only indices in that complement (for any next hop and any per-chunk
success outcomes), never an index already recorded as sent. -/
theorem resume_pending (d : StateDict) :
    (∀ i : ℕ, i ∈ (FragmentState.from_dict d).pending_indices ↔
      i < d.total ∧ i ∉ d.sent) ∧
    (∀ (nh : Option String) (ok : ℕ → Bool) (i : ℕ),
      i ∈ sendTaskAttempts nh ok (FragmentState.from_dict d) →
        i < d.total ∧ i ∉ d.sent) := by
  have hpend : ∀ i : ℕ, i ∈ (FragmentState.from_dict d).pending_indices ↔
      i < d.total ∧ i ∉ d.sent := by
    intro i
    simp [FragmentState.pending_indices, FragmentState.from_dict,
      List.mem_filter, List.mem_range]
  refine ⟨hpend, ?_⟩
  intro nh ok i hi
  cases nh with
  | none => exact absurd hi (by simp [sendTaskAttempts])
  | some hop =>
      rw [sendTaskAttempts] at hi
      by_cases hone : (FragmentState.from_dict d).total = 1 ∧
          0 ∉ (FragmentState.from_dict d).sent
      · rw [if_pos hone] at hi
        obtain rfl : i = 0 := by
          rcases List.mem_cons.mp hi with rfl | h0
          · rfl
          · exact absurd h0 (List.not_mem_nil _)
        have h1 : d.total = 1 := hone.1
        have h2 : (0 : ℕ) ∉ d.sent := by
          have := hone.2
          simpa [FragmentState.from_dict] using this
        exact ⟨by omega, h2⟩
      · rw [if_neg hone] at hi
        exact (hpend i).mp (attemptsUpToFailure_subset ok _ i hi)

/-- Witness for C3 at a concrete input: a job of 3 chunks with chunk 1
already sent has index 2 pending, and a full send round never attempts
index 1. -/
theorem resume_pending_witness :
    (2 ∈ (FragmentState.from_dict ⟨"f", 3, [1], 0, 0⟩).pending_indices) ∧
    ((1 : ℕ) ∈ sendTaskAttempts (some "B") (fun _ => true)
        (FragmentState.from_dict ⟨"f", 3, [1], 0, 0⟩) →
      (1 : ℕ) < 3 ∧ (1 : ℕ) ∉ [(1 : ℕ)]) := by
  have h := resume_pending ⟨"f", 3, [1], 0, 0⟩
  exact ⟨(h.1 2).mpr ⟨by norm_num, by simp⟩,
    fun hmem => h.2 (some "B") (fun _ => true) 1 hmem⟩

/-! ### Signature rejection (C5) -/

/-- C5: an inbound control message whose signature comes from a key not in
the receiver's allow-list verifies as false, and any message whose
signature does not verify is dropped before dispatch: no registered
handler runs, the node state (routing table) is returned unchanged, and
the outcome is a silent drop, not an error. -/
theorem signature_rejection (knownKeys : String → Option String)
    (verifySig : String → MsgData → String → Bool)
    (handlers : String → Option (PostmareNode → PostmareNode))
    (st : PostmareNode) (fp : String) (packet : SignedPacket) :
    (knownKeys fp = none →
      verify_signed knownKeys verifySig packet fp = false) ∧
    (verify_signed knownKeys verifySig packet fp = false →
      handle_conn knownKeys verifySig handlers st (some fp)
          (some (some packet))
        = (st, .droppedBadSig)) := by
  constructor
  · intro h
    simp [verify_signed, h]
  · intro hv
    simp [handle_conn, hv]

/-- Witness for C5 at a concrete input: with an empty allow-list, a signed
packet from `"E"` is dropped with the node state unchanged. -/
theorem signature_rejection_witness :
    handle_conn (fun _ => none) (fun _ _ _ => false) (fun _ => none)
        (PostmareNode.init "A" "H" 0) (some "E")
        (some (some ⟨⟨"pheromone", ""⟩, "00"⟩))
      = (PostmareNode.init "A" "H" 0, .droppedBadSig) := by
  have h := signature_rejection (fun _ => none) (fun _ _ _ => false)
    (fun _ => none) (PostmareNode.init "A" "H" 0) "E" ⟨⟨"pheromone", ""⟩, "00"⟩
  exact h.2 (h.1 rfl)

/-! ### Bridge.deliver (C7, C10) -/

theorem deliver_some_eq (b : BridgeState) (project : String)
    (files : List BridgeFile) (now : ℚ) :
    deliver b project (some files) now
      = if (collect_new_files files (read_marker b.marker)).isEmpty
        then (b, none)
        else ({ marker := some now,
                outbox := b.outbox ++ [packName project now] },
              some (packName project now)) := rfl

theorem collect_new_files_of_le (files : List BridgeFile) (t : ℚ)
    (hmt : ∀ f ∈ files, f.mtime ≤ t) :
    collect_new_files files t = [] := by
  have hfilter : files.filter (fun f =>
      f.is_file ∧ f.suffix ∈ bridgeExts ∧ t < f.mtime) = [] := by
    rw [List.filter_eq_nil_iff]
    intro f hf
    simp only [decide_eq_true_eq, not_and]
    intro _ _
    exact not_lt.mpr (hmt f hf)
  rw [collect_new_files, hfilter]
  simp

/-- C7: with no new files appearing between two `deliver` calls (every
file's mtime is at most the first call's clock), the first call returns a
package and advances the marker whenever matching new files exist, and the
second call returns `none` and changes nothing. -/
theorem deliver_idempotent (b : BridgeState) (project : String)
    (files : List BridgeFile) (now1 now2 : ℚ)
    (hmt : ∀ f ∈ files, f.mtime ≤ now1) :
    (collect_new_files files (read_marker b.marker) ≠ [] →
      (deliver b project (some files) now1).2
          = some (packName project now1) ∧
      (deliver b project (some files) now1).1.marker = some now1) ∧
    deliver (deliver b project (some files) now1).1 project (some files) now2
      = ((deliver b project (some files) now1).1, none) := by
  by_cases hne : collect_new_files files (read_marker b.marker) = []
  · have hfirst : deliver b project (some files) now1 = (b, none) := by
      rw [deliver_some_eq, if_pos (List.isEmpty_iff.mpr hne)]
    refine ⟨fun hcontra => absurd hne hcontra, ?_⟩
    rw [hfirst]
    rw [deliver_some_eq, if_pos (List.isEmpty_iff.mpr hne)]
  · have hfirst : deliver b project (some files) now1
        = ({ marker := some now1,
             outbox := b.outbox ++ [packName project now1] },
           some (packName project now1)) := by
      rw [deliver_some_eq,
        if_neg (fun hemp => hne (List.isEmpty_iff.mp hemp))]
    refine ⟨fun _ => by rw [hfirst]; exact ⟨rfl, rfl⟩, ?_⟩
    rw [hfirst]
    have hcoll : collect_new_files files (read_marker (some now1)) = [] :=
      collect_new_files_of_le files now1 hmt
    rw [deliver_some_eq, if_pos (List.isEmpty_iff.mpr hcoll)]

/-- Witness for C7 at a concrete input: one eligible file newer than the
marker is packed on the first call; the second call is a no-op. -/
theorem deliver_idempotent_witness :
    (deliver ⟨none, []⟩ "p" (some [⟨"a.json", 5, ".json", true⟩]) 10).2
        = some (packName "p" 10) ∧
    deliver (deliver ⟨none, []⟩ "p"
        (some [⟨"a.json", 5, ".json", true⟩]) 10).1 "p"
        (some [⟨"a.json", 5, ".json", true⟩]) 20
      = ((deliver ⟨none, []⟩ "p"
          (some [⟨"a.json", 5, ".json", true⟩]) 10).1, none) := by
  have h := deliver_idempotent ⟨none, []⟩ "p" [⟨"a.json", 5, ".json", true⟩]
    10 20 (by intro f hf; simp at hf; rw [hf]; norm_num)
  refine ⟨?_, h.2⟩
  refine (h.1 ?_).1
  simp [collect_new_files, read_marker, bridgeExts, List.mergeSort]

/-- C10: calling `deliver` when the resolved export directory does not
exist returns `none` (no exception), creates no package in the outbox, and
leaves the low-water-mark marker untouched. -/
theorem deliver_missing_dir (b : BridgeState) (project : String) (now : ℚ) :
    deliver b project none now = (b, none) ∧
    (deliver b project none now).1.outbox = b.outbox ∧
    (deliver b project none now).1.marker = b.marker :=
  ⟨rfl, rfl, rfl⟩

end PrimeLog
